import Mathlib

/-!
Verification of the pylog repository: a line-processing CLI
(`pylog/cli.py`) and a structured-logging combinator module
(`pylog/logger.py`).

The embedding models Python's dynamically typed values flowing through
the rule chain as `PyVal`, the module-global namespace (a dict) as an
association list `GEnv`, and the error sink callback (`on_exception`)
as a state transformer over an abstract handler-state type.  Compiled
rules (the host-language `eval` capability, out of scope per the spec)
are modelled as opaque functions that may read and mutate the global
namespace and may raise (return `Except.error`).
-/

/-- A Python value as far as the line chain can observe it:
`None`, a `bool`, a `str`, or any other object (`vother`) carried with
its canonical textual representation (its `str()` form). -/
inductive PyVal where
  | vnone : PyVal
  | vbool : Bool → PyVal
  | vstr : String → PyVal
  | vother : String → PyVal
  deriving DecidableEq, Repr

/-- Python `str(v)`. -/
def pyStr : PyVal → String
  | PyVal.vnone => "None"
  | PyVal.vbool true => "True"
  | PyVal.vbool false => "False"
  | PyVal.vstr s => s
  | PyVal.vother s => s

/-- Python `repr(v)` (strings quoted). -/
def pyRepr : PyVal → String
  | PyVal.vnone => "None"
  | PyVal.vbool true => "True"
  | PyVal.vbool false => "False"
  | PyVal.vstr s => "'" ++ s ++ "'"
  | PyVal.vother s => s

/-- The characters stripped by Python's `str.rstrip()`: exactly the code
points for which `str.isspace()` is true (CPython's whitespace table:
U+0009 to U+000D, U+001C to U+001F, U+0020, U+0085, U+00A0, U+1680,
U+2000 to U+200A, U+2028, U+2029, U+202F, U+205F, U+3000). -/
def isPySpace (c : Char) : Bool :=
  (9 ≤ c.toNat && c.toNat ≤ 13) || (28 ≤ c.toNat && c.toNat ≤ 31) ||
  c.toNat = 32 || c.toNat = 133 || c.toNat = 160 || c.toNat = 0x1680 ||
  (0x2000 ≤ c.toNat && c.toNat ≤ 0x200a) || c.toNat = 0x2028 ||
  c.toNat = 0x2029 || c.toNat = 0x202f || c.toNat = 0x205f ||
  c.toNat = 0x3000

/-- Python `s.rstrip()`: remove all trailing whitespace. -/
def pyRstrip (s : String) : String :=
  String.mk (((s.data.reverse).dropWhile isPySpace).reverse)

/-- The module-global namespace: a dict from names to values,
modelled as an association list with (invariantly) unique keys. -/
abbrev GEnv := List (String × PyVal)

/-- Dict lookup: `d.get(k)`. -/
def envGet : GEnv → String → Option PyVal
  | [], _ => none
  | p :: ps, k => if p.1 = k then some p.2 else envGet ps k

/-- Dict assignment `d[k] = v`: update in place if present, else append. -/
def envSet : GEnv → String → PyVal → GEnv
  | [], k, v => [(k, v)]
  | p :: ps, k, v => if p.1 = k then (k, v) :: ps else p :: envSet ps k v

/-- Dict deletion `del d[k]` (a no-op when the key is absent). -/
def envDel : GEnv → String → GEnv
  | [], _ => []
  | p :: ps, k => if p.1 = k then envDel ps k else p :: envDel ps k

/-- The key set of a dict, in insertion order. -/
def envKeys (l : GEnv) : List String :=
  l.map Prod.fst

/-- A compiled per-line rule: reads the global namespace and the current
value `x`, may mutate the namespace, and returns a value or raises. -/
abbrev RuleFn := GEnv → PyVal → Except String PyVal × GEnv

/-- A compiled deferred rule (`last_lambda`): no value argument. -/
abbrev LastFn := GEnv → Except String PyVal × GEnv

/-- The message built by `__watch` when a per-line rule raises:
`f"{label}({args}, {kwargs}) caused {e}"` with `args = (x,)`, `kwargs = {}`. -/
def watchErrMsg (i : Nat) (x : PyVal) (e : String) : String :=
  "lambda[" ++ toString i ++ "]((" ++ pyRepr x ++ ",), \x7b\x7d) caused " ++ e

/-- The message built by `__watch` when the deferred rule raises
(`args = ()`). -/
def lastErrMsg (e : String) : String :=
  "lambda[last]((), \x7b\x7d) caused " ++ e

/-- `__watch(f"lambda[{i}]", f)`: pass results through, wrap exceptions
with the rule index and call arguments. -/
def watchRule (i : Nat) (f : RuleFn) : RuleFn := fun g x =>
  match f g x with
  | (Except.ok r, g') => (Except.ok r, g')
  | (Except.error e, g') => (Except.error (watchErrMsg i x e), g')

/-- `__watch("lambda[last]", f)` for the zero-argument deferred rule. -/
def watchLast (f : LastFn) : LastFn := fun g =>
  match f g with
  | (Except.ok r, g') => (Except.ok r, g')
  | (Except.error e, g') => (Except.error (lastErrMsg e), g')

/-- `__optional` applied to the (maybe absent) deferred rule:
absent means a function that returns `None`. -/
def pyOptionalLast (f : Option LastFn) : LastFn :=
  match f with
  | none => fun g => (Except.ok PyVal.vnone, g)
  | some fn => fn

/-- `__optional` applied to the (maybe absent) `on_exception` handler:
absent means a null handler that does nothing. -/
def pyOptionalHandler {η : Type} (f : Option (String → η → η)) : String → η → η :=
  match f with
  | none => fun _ h => h
  | some fn => fn

/-- The three-way branch of the `match` in `new_mapper_chain.inner`:
`None | False` drops, `True` keeps `x`, anything else substitutes. -/
inductive StepKind where
  | drop : StepKind
  | keep : StepKind
  | subst : PyVal → StepKind
  deriving DecidableEq, Repr

/-- Classify a rule result exactly as `inner`'s `match` does. -/
def classify : PyVal → StepKind
  | PyVal.vnone => StepKind.drop
  | PyVal.vbool false => StepKind.drop
  | PyVal.vbool true => StepKind.keep
  | r => StepKind.subst r

/-- `new_mapper_chain.inner`: run the (watched) rules in order on the
current value.  A raising rule is reported to `on_exception` and yields
`None`; `None`/`False` results drop the line; `True` keeps the current
value; any other result becomes the new current value unchanged. -/
def chainInner {η : Type} (onExc : String → η → η) :
    List RuleFn → PyVal → GEnv → η → Option PyVal × GEnv × η
  | [], x, g, h => (some x, g, h)
  | f :: fs, x, g, h =>
    match f g x with
    | (Except.error e, g') => (none, g', onExc e h)
    | (Except.ok r, g') =>
      match classify r with
      | StepKind.drop => (none, g', h)
      | StepKind.keep => chainInner onExc fs x g' h
      | StepKind.subst v => chainInner onExc fs v g' h

/-- `[__watch(f"lambda[{i}]", f) for i, f in enumerate(fs)]`, with the
enumeration counter threaded explicitly. -/
def watchAll (i : Nat) : List RuleFn → List RuleFn
  | [] => []
  | f :: fs => watchRule i f :: watchAll (i + 1) fs

/-- The watched rule list built by `new_mapper_chain`. -/
def newMapperChainFns (fs : List RuleFn) : List RuleFn :=
  watchAll 0 fs

/-- Modelled from the claim C1 wording (not from the source): identical
to `chainInner` except that a substituting result is converted to its
string form before the next rule is evaluated. -/
def chainInnerClaim {η : Type} (onExc : String → η → η) :
    List RuleFn → PyVal → GEnv → η → Option PyVal × GEnv × η
  | [], x, g, h => (some x, g, h)
  | f :: fs, x, g, h =>
    match f g x with
    | (Except.error e, g') => (none, g', onExc e h)
    | (Except.ok r, g') =>
      match classify r with
      | StepKind.drop => (none, g', h)
      | StepKind.keep => chainInnerClaim onExc fs x g' h
      | StepKind.subst v => chainInnerClaim onExc fs (PyVal.vstr (pyStr v)) g' h

/-- Modelled from the amended claim C1 wording: the chain stops on a
`None` or `False` result, keeps `x` on `True`, and otherwise continues
with the result itself, unconverted. -/
def chainEvalAmended {η : Type} (onExc : String → η → η) :
    List RuleFn → PyVal → GEnv → η → Option PyVal × GEnv × η
  | [], x, g, h => (some x, g, h)
  | f :: fs, x, g, h =>
    match f g x with
    | (Except.error e, g') => (none, g', onExc e h)
    | (Except.ok r, g') =>
      if r = PyVal.vnone ∨ r = PyVal.vbool false then (none, g', h)
      else if r = PyVal.vbool true then chainEvalAmended onExc fs x g' h
      else chainEvalAmended onExc fs r g' h

/-- `Mapper.Funcs.last`: call the deferred rule; `None` stays `None`,
anything else is converted with `str`. -/
def funcsLast (lm : LastFn) (g : GEnv) : Except String (Option String) × GEnv :=
  match lm g with
  | (Except.ok PyVal.vnone, g') => (Except.ok none, g')
  | (Except.ok r, g') => (Except.ok (some (pyStr r)), g')
  | (Except.error e, g') => (Except.error e, g')

/-- The per-line loop of `__map_lines`: strip each line, run the chain,
emit the `str` of every non-`None` result. -/
def lineLoop {η : Type} (onExc : String → η → η) (fs : List RuleFn) :
    List String → GEnv → η → List String × GEnv × η
  | [], g, h => ([], g, h)
  | l :: ls, g, h =>
    match chainInner onExc fs (PyVal.vstr (pyRstrip l)) g h with
    | (none, g1, h1) => lineLoop onExc fs ls g1 h1
    | (some v, g1, h1) =>
      match lineLoop onExc fs ls g1 h1 with
      | (out, g2, h2) => (pyStr v :: out, g2, h2)

/-- The end-of-stream block of `__map_lines`: run `Funcs.last` under a
`try`, emit a non-`None` result, route an exception to the handler. -/
def lastBlock {η : Type} (onExc : String → η → η) (lm : LastFn)
    (g : GEnv) (h : η) : List String × GEnv × η :=
  match funcsLast lm g with
  | (Except.ok none, g') => ([], g', h)
  | (Except.ok (some t), g') => ([t], g', h)
  | (Except.error e, g') => ([], g', onExc e h)

/-- The body of `__map_lines` inside the `with` block: the line loop
followed by the deferred block. -/
def mapLinesBody {η : Type} (onExc : String → η → η) (fs : List RuleFn)
    (lm : LastFn) (lines : List String) (g : GEnv) (h : η) :
    List String × GEnv × η :=
  match lineLoop onExc fs lines g h with
  | (o1, g1, h1) =>
    match lastBlock onExc lm g1 h1 with
    | (o2, g2, h2) => (o1 ++ o2, g2, h2)

/-- The symbol-collision test of `Mapper.apply_symtable`:
`set(symtable) & set(globals())` is non-empty. -/
def collides (sym g : GEnv) : Bool :=
  (envKeys sym).any (fun k => (envGet g k).isSome)

/-- Install every symtable binding into the global namespace. -/
def installSym (g sym : GEnv) : GEnv :=
  sym.foldl (fun a p => envSet a p.1 p.2) g

/-- `__map_lines` together with `Mapper.apply_symtable`: check for
collisions, install the symtable, run the body, then delete the added
keys.  A collision raises before any line is processed. -/
def mapLinesRun {η : Type} (onExc : String → η → η) (sym : GEnv)
    (fs : List RuleFn) (lm : LastFn) (lines : List String) (g : GEnv)
    (h : η) : Except String (List String × GEnv × η) :=
  if collides sym g then
    Except.error "cannot update global symtable keys"
  else
    let addedKeys := (envKeys sym).filter (fun k => (envGet g k).isNone)
    match mapLinesBody onExc fs lm lines (installSym g sym) h with
    | (out, g2, h2) => Except.ok (out, addedKeys.foldl envDel g2, h2)

/-- `map_lines`: default the handler with `__optional`, build the watched
chain and the optional watched deferred rule, and run `__map_lines`. -/
def map_lines {η : Type} (fs : List RuleFn) (lines : List String)
    (onExc : Option (String → η → η)) (sym : GEnv) (lm : Option LastFn)
    (g : GEnv) (h : η) : Except String (List String × GEnv × η) :=
  mapLinesRun (pyOptionalHandler onExc) sym (newMapperChainFns fs)
    (pyOptionalLast (lm.map watchLast)) lines g h

/-! ### The logger module: `Event`, `Mapper`, `Logger` -/

/-- `dict.pop(k, dflt)`: remove and return the binding if present,
otherwise return the default. -/
def dictPop (d : List (String × PyVal)) (k : String) (dflt : PyVal) :
    PyVal × List (String × PyVal) :=
  match envGet d k with
  | some v => (v, envDel d k)
  | none => (dflt, d)

/-- Python `a | b` on dicts: `b`'s entries override `a`'s. -/
def dictUnion (a b : List (String × PyVal)) : List (String × PyVal) :=
  b.foldl (fun acc p => envSet acc p.1 p.2) a

/-- `tuple((k, kwargs[k]) for k in sorted(kwargs))`: the keyword pairs in
sorted key order. -/
def canonKwargs (kw : List (String × PyVal)) : List (String × PyVal) :=
  (List.insertionSort (fun a b : String => a ≤ b) (envKeys kw)).map
    (fun k => (k, (envGet kw k).getD PyVal.vnone))

/-- A log event (`logger.Event`): level, format, positional args and
canonicalized keyword args.  Python does not enforce the annotated
types of `level`/`fmt` at runtime, so both are `PyVal`. -/
structure Event where
  level : PyVal
  fmt : PyVal
  args : List PyVal
  kwargs : List (String × PyVal)
  deriving DecidableEq, Repr

/-- `Event.new`: sort the keyword arguments by key. -/
def Event.new (level fmt : PyVal) (args : List PyVal)
    (kwargs : List (String × PyVal)) : Event :=
  ⟨level, fmt, args, canonKwargs kwargs⟩

/-- `Event.update`: pop `level`/`fmt` out of the new keywords, concatenate
the positional args, merge the keyword dicts with the new values winning. -/
def Event.update (self : Event) (args : List PyVal)
    (kwargs : List (String × PyVal)) : Event :=
  match dictPop kwargs "level" self.level with
  | (level, kw1) =>
    match dictPop kw1 "fmt" self.fmt with
    | (fmt, kw2) =>
      Event.new level fmt (self.args ++ args) (dictUnion self.kwargs kw2)

/-- A mapper-stage function (`MapperT`): takes an event, may mutate an
abstract side-effect state `σ`, and returns the next event, `None`
(drop), or raises. -/
abbrev MapperT (σ : Type) := Event → σ → Except String (Option Event) × σ

/-- `logger.Mapper`: wraps one mapper function. -/
structure Mapper (σ : Type) where
  mapper : MapperT σ

/-- `Mapper.next(mapper, ignore_result)`: sequential composition.  A
`None` result of the first stage short-circuits without invoking the
second; with `ignore_result` the second stage runs for its effects only
and the first stage's result is returned. -/
def Mapper.next {σ : Type} (self : Mapper σ) (mapper : MapperT σ)
    (ignore_result : Bool) : Mapper σ :=
  if ignore_result then
    Mapper.mk (fun ev s =>
      match self.mapper ev s with
      | (Except.error e, s1) => (Except.error e, s1)
      | (Except.ok none, s1) => (Except.ok none, s1)
      | (Except.ok (some r), s1) =>
        match mapper r s1 with
        | (Except.error e, s2) => (Except.error e, s2)
        | (Except.ok _, s2) => (Except.ok (some r), s2))
  else
    Mapper.mk (fun ev s =>
      match self.mapper ev s with
      | (Except.error e, s1) => (Except.error e, s1)
      | (Except.ok none, s1) => (Except.ok none, s1)
      | (Except.ok (some r), s1) => mapper r s1)

/-- The no-op mapper wrapping the identity function `lambda x: x`. -/
def idMapper {σ : Type} : Mapper σ :=
  Mapper.mk (fun ev s => (Except.ok (some ev), s))

/-- The outcome of `Logger.put`: a returned result or a `PutError`
carrying the underlying cause. -/
inductive PutResult (σ : Type) where
  | ok : Option Event → σ → PutResult σ
  | putError : String → σ → PutResult σ
  deriving DecidableEq

/-- `logger.Logger`: binds one mapper chain. -/
structure Logger (σ : Type) where
  mapper : Mapper σ

/-- `Logger.put`: build the event, run the chain, wrap any exception in
a `PutError` preserving the cause. -/
def Logger.put {σ : Type} (self : Logger σ) (level fmt : PyVal)
    (args : List PyVal) (kwargs : List (String × PyVal)) (s : σ) :
    PutResult σ :=
  match self.mapper.mapper (Event.new level fmt args kwargs) s with
  | (Except.ok r, s1) => PutResult.ok r s1
  | (Except.error e, s1) => PutResult.putError e s1

/-! ### Basic lemmas about the chain evaluator -/

theorem chainInner_cons {η : Type} (onExc : String → η → η) (f : RuleFn)
    (fs : List RuleFn) (x : PyVal) (g : GEnv) (h : η) :
    chainInner onExc (f :: fs) x g h =
      match f g x with
      | (Except.error e, g') => (none, g', onExc e h)
      | (Except.ok r, g') =>
        match classify r with
        | StepKind.drop => (none, g', h)
        | StepKind.keep => chainInner onExc fs x g' h
        | StepKind.subst v => chainInner onExc fs v g' h := rfl

theorem chainEvalAmended_cons {η : Type} (onExc : String → η → η) (f : RuleFn)
    (fs : List RuleFn) (x : PyVal) (g : GEnv) (h : η) :
    chainEvalAmended onExc (f :: fs) x g h =
      match f g x with
      | (Except.error e, g') => (none, g', onExc e h)
      | (Except.ok r, g') =>
        if r = PyVal.vnone ∨ r = PyVal.vbool false then (none, g', h)
        else if r = PyVal.vbool true then chainEvalAmended onExc fs x g' h
        else chainEvalAmended onExc fs r g' h := rfl

/-- Claim C1, corrected: on the rule chain `[r0, r1]` where `r0` returns a
non-string value and `r1` inspects the representation of its argument, the
code's evaluation differs from the claim's "convert to string form before
the next rule" semantics. -/
theorem c1_counterexample :
    chainInner (fun e h => h ++ [e])
        (newMapperChainFns
          [fun g _ => (Except.ok (PyVal.vother "7"), g),
           fun g x => (Except.ok (PyVal.vstr (pyRepr x)), g)])
        (PyVal.vstr "s") [] ([] : List String) ≠
      chainInnerClaim (fun e h => h ++ [e])
        (newMapperChainFns
          [fun g _ => (Except.ok (PyVal.vother "7"), g),
           fun g x => (Except.ok (PyVal.vstr (pyRepr x)), g)])
        (PyVal.vstr "s") [] ([] : List String) := by
  decide

/-- Claim C1, amended: the chain evaluates the rules in order on the
current value `x`; a `None` or `False` result stops the chain and the
line emits nothing, a `True` result keeps `x` unchanged, and any other
result becomes the new current value itself, unconverted (its string
form is produced only when the final value is emitted); a raising rule
reports to the error sink and stops the chain. -/
theorem c1_chain_semantics {η : Type} (onExc : String → η → η)
    (fs : List RuleFn) (x : PyVal) (g : GEnv) (h : η) :
    chainInner onExc fs x g h = chainEvalAmended onExc fs x g h := by
  induction fs generalizing x g h with
  | nil => rfl
  | cons f fs ih =>
    rw [chainInner_cons, chainEvalAmended_cons]
    rcases hfx : f g x with ⟨r0, g'⟩
    cases r0 with
    | error e => rfl
    | ok r =>
      cases r with
      | vnone => simp [classify]
      | vbool b => cases b <;> simp [classify, ih]
      | vstr s => simp [classify, ih]
      | vother s => simp [classify, ih]

/-! ### Claims about the `Mapper`/`Logger` combinators -/

/-- Claim C2: `then` (`next` with `ignore_result=False`) short-circuits on
a drop without invoking the second stage (the result is independent of
`g` and carries `f`'s state), and otherwise equals `g` applied to `f`'s
result; `then_ignoring` (`ignore_result=True`) short-circuits the same
way, and otherwise runs `g` for its side effects only and returns `f`'s
result, discarding `g`'s return value. -/
theorem c2_composition {σ : Type} (f : MapperT σ) (v : Event) (s : σ) :
    (∀ s1, f v s = (Except.ok none, s1) →
      ∀ g : MapperT σ,
        ((Mapper.mk f).next g false).mapper v s = (Except.ok none, s1) ∧
        ((Mapper.mk f).next g true).mapper v s = (Except.ok none, s1))
  ∧ (∀ r s1, f v s = (Except.ok (some r), s1) →
      ∀ g : MapperT σ,
        ((Mapper.mk f).next g false).mapper v s = g r s1 ∧
        (∀ x s2, g r s1 = (Except.ok x, s2) →
          ((Mapper.mk f).next g true).mapper v s = (Except.ok (some r), s2))) := by
  constructor
  · intro s1 hf g
    constructor <;> simp [Mapper.next, hf]
  · intro r s1 hf g
    constructor
    · simp [Mapper.next, hf]
    · intro x s2 hg
      simp [Mapper.next, hf, hg]

/-- Concrete event used by the C2 witness. -/
def c2Event : Event := Event.new (PyVal.vother "10") (PyVal.vstr "msg") [] []

/-- First stage for the C2 witness: passes the event through unchanged. -/
def c2f : MapperT Nat := fun ev s => (Except.ok (some ev), s)

/-- Second stage for the C2 witness: drops, and counts its invocations
in the state. -/
def c2g : MapperT Nat := fun _ s => (Except.ok none, s + 1)

theorem c2_witness :
    c2f c2Event 0 = (Except.ok (some c2Event), 0) ∧
    ((Mapper.mk c2f).next c2g false).mapper c2Event 0 = (Except.ok none, 1) ∧
    ((Mapper.mk c2f).next c2g true).mapper c2Event 0 =
      (Except.ok (some c2Event), 1) := by
  refine ⟨rfl, ?_, ?_⟩
  · have h := ((c2_composition c2f c2Event 0).2 c2Event 0 rfl c2g).1
    exact h.trans rfl
  · exact ((c2_composition c2f c2Event 0).2 c2Event 0 rfl c2g).2 none 1 rfl

/-- Claim C7: `Logger.put` yields a `PutError` carrying the underlying
exception as its cause exactly when the installed mapper chain raises on
the constructed event, and otherwise returns the chain's result, which
is `None` exactly when a stage dropped the event. -/
theorem c7_put_wraps {σ : Type} (lg : Logger σ) (level fmt : PyVal)
    (args : List PyVal) (kwargs : List (String × PyVal)) (s : σ) :
    (∀ e s1, lg.put level fmt args kwargs s = PutResult.putError e s1 ↔
      lg.mapper.mapper (Event.new level fmt args kwargs) s = (Except.error e, s1))
  ∧ (∀ r s1, lg.put level fmt args kwargs s = PutResult.ok r s1 ↔
      lg.mapper.mapper (Event.new level fmt args kwargs) s = (Except.ok r, s1)) := by
  refine ⟨fun e s1 => ?_, fun r s1 => ?_⟩ <;>
  · rcases hm : lg.mapper.mapper (Event.new level fmt args kwargs) s with ⟨res, s2⟩
    cases res <;> simp [Logger.put, hm]

/-- Claim C8: composition with `then` is associative, and the no-op
mapper wrapping the identity function is an identity for `then` on both
sides, at every event and state. -/
theorem c8_then_assoc_id {σ : Type} (f : Mapper σ) (g h : MapperT σ)
    (ev : Event) (s : σ) :
    (((f.next g false).next h false).mapper ev s =
      (f.next ((Mapper.mk g).next h false).mapper false).mapper ev s)
  ∧ ((idMapper.next f.mapper false).mapper ev s = f.mapper ev s)
  ∧ ((f.next (idMapper (σ := σ)).mapper false).mapper ev s = f.mapper ev s) := by
  refine ⟨?_, ?_, ?_⟩
  · rcases hf : f.mapper ev s with ⟨r0, s1⟩
    cases r0 with
    | error e => simp [Mapper.next, hf]
    | ok o =>
      cases o with
      | none => simp [Mapper.next, hf]
      | some r =>
        rcases hg : g r s1 with ⟨r1, s2⟩
        cases r1 with
        | error e => simp [Mapper.next, hf, hg]
        | ok o1 =>
          cases o1 <;> simp [Mapper.next, hf, hg]
  · rcases hf : f.mapper ev s with ⟨r0, s1⟩
    simp [Mapper.next, idMapper, hf]
  · rcases hf : f.mapper ev s with ⟨r0, s1⟩
    cases r0 with
    | error e => simp [Mapper.next, idMapper, hf]
    | ok o => cases o <;> simp [Mapper.next, idMapper, hf]

/-! ### Chain decomposition lemmas -/

theorem watchAll_append (i : Nat) (as bs : List RuleFn) :
    watchAll i (as ++ bs) = watchAll i as ++ watchAll (i + as.length) bs := by
  induction as generalizing i with
  | nil => simp [watchAll]
  | cons f fs ih =>
    have h2 : i + 1 + fs.length = i + (f :: fs).length := by
      simp only [List.length_cons]
      omega
    show watchRule i f :: watchAll (i + 1) (fs ++ bs)
        = watchRule i f :: (watchAll (i + 1) fs ++ watchAll (i + (f :: fs).length) bs)
    rw [ih, h2]

theorem watchRule_error (i : Nat) (f : RuleFn) (g g' : GEnv) (x : PyVal)
    (e : String) (hf : f g x = (Except.error e, g')) :
    watchRule i f g x = (Except.error (watchErrMsg i x e), g') := by
  simp [watchRule, hf]

theorem chainInner_append_cont {η : Type} (onExc : String → η → η)
    (as bs : List RuleFn) (x y : PyVal) (g g1 : GEnv) (h h1 : η)
    (hpre : chainInner onExc as x g h = (some y, g1, h1)) :
    chainInner onExc (as ++ bs) x g h = chainInner onExc bs y g1 h1 := by
  induction as generalizing x g h with
  | nil =>
    simp [chainInner] at hpre
    simp [hpre.1, hpre.2.1, hpre.2.2]
  | cons f fs ih =>
    rw [chainInner_cons] at hpre
    rw [List.cons_append, chainInner_cons]
    rcases hfx : f g x with ⟨r0, g'⟩
    rw [hfx] at hpre
    cases r0 with
    | error e => exact Option.noConfusion (congrArg Prod.fst hpre)
    | ok r =>
      cases r with
      | vnone => exact Option.noConfusion (congrArg Prod.fst hpre)
      | vbool b =>
        cases b with
        | false => exact Option.noConfusion (congrArg Prod.fst hpre)
        | true => exact ih x g' h hpre
      | vstr s => exact ih (PyVal.vstr s) g' h hpre
      | vother s => exact ih (PyVal.vother s) g' h hpre

/-- Claim C3: if the rules before position `i` evaluate without dropping
to the value `y` and rule `i` raises on `y`, then the chain reports to
the error sink a message carrying the rule index and the input value,
the line produces no output, no later rule runs (the resulting state is
that left by the raising rule, independent of the remaining rules), and
the driver continues with the next line without aborting the stream. -/
theorem c3_exception_isolated {η : Type} (onExc : String → η → η)
    (fs₁ : List RuleFn) (f : RuleFn) (fs₂ : List RuleFn) (lm : LastFn)
    (l : String) (ls : List String) (g g1 g2 : GEnv) (h h1 : η)
    (y : PyVal) (e : String)
    (hpre : chainInner onExc (watchAll 0 fs₁) (PyVal.vstr (pyRstrip l)) g h
      = (some y, g1, h1))
    (hraise : f g1 y = (Except.error e, g2)) :
    (chainInner onExc (newMapperChainFns (fs₁ ++ f :: fs₂))
        (PyVal.vstr (pyRstrip l)) g h
      = (none, g2, onExc (watchErrMsg fs₁.length y e) h1))
  ∧ (lineLoop onExc (newMapperChainFns (fs₁ ++ f :: fs₂)) (l :: ls) g h
      = lineLoop onExc (newMapperChainFns (fs₁ ++ f :: fs₂)) ls g2
          (onExc (watchErrMsg fs₁.length y e) h1))
  ∧ (mapLinesBody onExc (newMapperChainFns (fs₁ ++ f :: fs₂)) lm (l :: ls) g h
      = mapLinesBody onExc (newMapperChainFns (fs₁ ++ f :: fs₂)) lm ls g2
          (onExc (watchErrMsg fs₁.length y e) h1)) := by
  have hchain : chainInner onExc (newMapperChainFns (fs₁ ++ f :: fs₂))
      (PyVal.vstr (pyRstrip l)) g h
      = (none, g2, onExc (watchErrMsg fs₁.length y e) h1) := by
    rw [newMapperChainFns, watchAll_append]
    rw [chainInner_append_cont onExc _ _ _ y g g1 h h1 hpre]
    rw [watchAll, chainInner_cons,
      watchRule_error (0 + fs₁.length) f g1 g2 y e hraise]
    simp
  have hloop : lineLoop onExc (newMapperChainFns (fs₁ ++ f :: fs₂)) (l :: ls) g h
      = lineLoop onExc (newMapperChainFns (fs₁ ++ f :: fs₂)) ls g2
          (onExc (watchErrMsg fs₁.length y e) h1) := by
    rw [lineLoop, hchain]
  refine ⟨hchain, hloop, ?_⟩
  rw [mapLinesBody, hloop, mapLinesBody]

/-- The raising rule of the C3 witness: raises on `"second"`, maps any
other line to `"mapped " + x`. -/
def c3rule : RuleFn := fun g x =>
  if x = PyVal.vstr "second" then (Except.error "exception from second", g)
  else (Except.ok (PyVal.vstr ("mapped " ++ pyStr x)), g)

/-- The error sink of the C3 witness: record every reported message. -/
def c3onExc : String → List String → List String := fun e hs => hs ++ [e]

theorem c3_witness :
    (chainInner c3onExc (watchAll 0 []) (PyVal.vstr (pyRstrip "second")) []
        ([] : List String) = (some (PyVal.vstr "second"), [], []))
  ∧ (c3rule [] (PyVal.vstr "second") = (Except.error "exception from second", []))
  ∧ (chainInner c3onExc (newMapperChainFns ([] ++ c3rule :: []))
        (PyVal.vstr (pyRstrip "second")) [] ([] : List String)
      = (none, [],
          c3onExc (watchErrMsg (List.length ([] : List RuleFn))
            (PyVal.vstr "second") "exception from second") [])) := by
  refine ⟨rfl, rfl, ?_⟩
  exact (c3_exception_isolated c3onExc [] c3rule [] (pyOptionalLast none)
    "second" ["third"] [] [] [] [] [] (PyVal.vstr "second")
    "exception from second" rfl rfl).1

/-! ### Claim C5: the deferred rule -/

/-- Claim C5: with a configured deferred rule, after the line loop has
finished in symbol-table state `g1`, the deferred rule is evaluated
exactly once, with no arguments, on `g1` itself (so it sees all
mutations made by the per-line rules); a `None` result emits nothing,
any other result is emitted in its string form, and an exception is
routed to the error sink. -/
theorem c5_deferred {η : Type} (onExc : String → η → η) (fs : List RuleFn)
    (lf : LastFn) (lines : List String) (g g1 : GEnv) (h h1 : η)
    (o1 : List String)
    (hloop : lineLoop onExc fs lines g h = (o1, g1, h1)) :
    (∀ g2, lf g1 = (Except.ok PyVal.vnone, g2) →
      mapLinesBody onExc fs (pyOptionalLast (some (watchLast lf))) lines g h
        = (o1, g2, h1))
  ∧ (∀ r g2, lf g1 = (Except.ok r, g2) → r ≠ PyVal.vnone →
      mapLinesBody onExc fs (pyOptionalLast (some (watchLast lf))) lines g h
        = (o1 ++ [pyStr r], g2, h1))
  ∧ (∀ e g2, lf g1 = (Except.error e, g2) →
      mapLinesBody onExc fs (pyOptionalLast (some (watchLast lf))) lines g h
        = (o1, g2, onExc (lastErrMsg e) h1)) := by
  have hbody : ∀ res : List String × GEnv × η,
      lastBlock onExc (pyOptionalLast (some (watchLast lf))) g1 h1 = res →
      mapLinesBody onExc fs (pyOptionalLast (some (watchLast lf))) lines g h
        = (o1 ++ res.1, res.2.1, res.2.2) := by
    intro res hres
    simp only [mapLinesBody, hloop, hres]
  refine ⟨?_, ?_, ?_⟩
  · intro g2 hlf
    have hlast : lastBlock onExc (pyOptionalLast (some (watchLast lf))) g1 h1
        = ([], g2, h1) := by
      simp [lastBlock, funcsLast, pyOptionalLast, watchLast, hlf]
    simpa using hbody _ hlast
  · intro r g2 hlf hr
    have hlast : lastBlock onExc (pyOptionalLast (some (watchLast lf))) g1 h1
        = ([pyStr r], g2, h1) := by
      cases r with
      | vnone => exact absurd rfl hr
      | vbool b =>
        cases b <;> simp [lastBlock, funcsLast, pyOptionalLast, watchLast, hlf]
      | vstr s => simp [lastBlock, funcsLast, pyOptionalLast, watchLast, hlf]
      | vother s => simp [lastBlock, funcsLast, pyOptionalLast, watchLast, hlf]
    exact hbody _ hlast
  · intro e g2 hlf
    have hlast : lastBlock onExc (pyOptionalLast (some (watchLast lf))) g1 h1
        = ([], g2, onExc (lastErrMsg e) h1) := by
      simp [lastBlock, funcsLast, pyOptionalLast, watchLast, hlf]
    simpa using hbody _ hlast

/-- Error sink used by witnesses: record every reported message. -/
def recExc : String → List String → List String := fun e hs => hs ++ [e]

/-- Read the accumulator variable of the C5 witness from the namespace. -/
def c5acc (g : GEnv) : String :=
  match envGet g "acc" with
  | some (PyVal.vstr s) => s
  | _ => ""

/-- Per-line rule of the C5 witness: accumulate the line into the shared
namespace and pass the line through unchanged (returns `True`). -/
def c5rule : RuleFn := fun g x =>
  (Except.ok (PyVal.vbool true), envSet g "acc" (PyVal.vstr (c5acc g ++ pyStr x)))

/-- Deferred rule of the C5 witness: report the final accumulator. -/
def c5last : LastFn := fun g =>
  (Except.ok (PyVal.vstr ("acc = " ++ c5acc g)), g)

theorem c5_witness :
    (lineLoop recExc [c5rule] ["first", "second", "third"] [] ([] : List String)
      = (["first", "second", "third"],
          [("acc", PyVal.vstr "firstsecondthird")], []))
  ∧ (c5last [("acc", PyVal.vstr "firstsecondthird")]
      = (Except.ok (PyVal.vstr "acc = firstsecondthird"),
          [("acc", PyVal.vstr "firstsecondthird")]))
  ∧ (mapLinesBody recExc [c5rule] (pyOptionalLast (some (watchLast c5last)))
        ["first", "second", "third"] [] ([] : List String)
      = (["first", "second", "third"] ++ ["acc = firstsecondthird"],
          [("acc", PyVal.vstr "firstsecondthird")], [])) := by
  refine ⟨by decide, rfl, ?_⟩
  exact (c5_deferred recExc [c5rule] c5last ["first", "second", "third"] []
    [("acc", PyVal.vstr "firstsecondthird")] [] [] ["first", "second", "third"]
    (by decide)).2.1 (PyVal.vstr "acc = firstsecondthird")
    [("acc", PyVal.vstr "firstsecondthird")] rfl (by decide)

/-! ### Claim C9: the empty chain -/

theorem lineLoop_nil_rules {η : Type} (onExc : String → η → η)
    (lines : List String) (g : GEnv) (h : η) :
    lineLoop onExc [] lines g h = (lines.map pyRstrip, g, h) := by
  induction lines generalizing g h with
  | nil => rfl
  | cons l ls ih => simp [lineLoop, chainInner, pyStr, ih]

/-- A line that consists of a (possibly empty) body with no trailing
whitespace, terminated by a single newline. -/
def lineNewlineTerminated (l : String) : Bool :=
  match l.data.reverse with
  | [] => false
  | c :: rest =>
    c = '\n' && (match rest with
      | [] => true
      | c2 :: _ => !isPySpace c2)

theorem strMk_append (a b : List Char) :
    String.mk a ++ String.mk b = String.mk (a ++ b) := rfl

theorem pyRstrip_newline (l : String) (hl : lineNewlineTerminated l = true) :
    pyRstrip l ++ "\n" = l := by
  obtain ⟨d⟩ := l
  cases hrev : d.reverse with
  | nil => rw [lineNewlineTerminated] at hl; simp [hrev] at hl
  | cons c rest =>
    have hd : d = (c :: rest).reverse := by rw [← hrev, List.reverse_reverse]
    subst hd
    rw [lineNewlineTerminated] at hl
    simp only [List.reverse_reverse] at hl
    cases rest with
    | nil =>
      simp at hl
      subst hl
      decide
    | cons c2 rest2 =>
      simp at hl
      obtain ⟨hc, hc2⟩ := hl
      subst hc
      have hnl : isPySpace '\n' = true := by decide
      have hstep : List.dropWhile isPySpace ('\n' :: c2 :: rest2) = c2 :: rest2 := by
        simp [List.dropWhile, hnl, hc2]
      show pyRstrip (String.mk (('\n' :: c2 :: rest2).reverse)) ++ String.mk ['\n']
          = String.mk (('\n' :: c2 :: rest2).reverse)
      unfold pyRstrip
      simp only [List.reverse_reverse, hstep, strMk_append]
      simp [List.reverse_cons]

theorem map_self_of_eq {α : Type} (f : α → α) :
    ∀ l : List α, (∀ a ∈ l, f a = a) → l.map f = l
  | [], _ => rfl
  | a :: l, hyp => by
    rw [List.map_cons, hyp a (by simp),
      map_self_of_eq f l (fun x hx => hyp x (by simp [hx]))]

/-- Claim C9, corrected: the no-rule chain does not merely strip the
trailing newline — `rstrip()` removes all trailing whitespace, so the
line `"a \n"` is emitted as `"a"` and the output differs from the
input. -/
theorem c9_counterexample :
    (map_lines [] ["a \n"]
        (none : Option (String → List String → List String)) [] none [] []
      = Except.ok (["a"], [], []))
  ∧ ["a" ++ "\n"] ≠ ["a \n"] := by
  exact ⟨rfl, by decide⟩

/-- Claim C9, amended: with zero rules and no deferred rule the chain
emits, for every input line, the line with its trailing whitespace
(including the newline) stripped, followed by a newline, leaving the
namespace untouched; when no input line carries trailing whitespace
other than its final newline, the emitted output equals the input line
for line. -/
theorem c9_no_rules {η : Type} (lines : List String) (g : GEnv) (h : η) :
    (map_lines [] lines (none : Option (String → η → η)) [] none g h
      = Except.ok (lines.map pyRstrip, g, h))
  ∧ ((∀ l ∈ lines, lineNewlineTerminated l = true) →
      lines.map (fun l => pyRstrip l ++ "\n") = lines) := by
  constructor
  · have hloop := lineLoop_nil_rules
      (pyOptionalHandler (none : Option (String → η → η))) lines g h
    simp [map_lines, mapLinesRun, collides, envKeys, installSym,
      newMapperChainFns, watchAll, mapLinesBody, hloop, lastBlock,
      funcsLast, pyOptionalLast]
  · intro hall
    exact map_self_of_eq _ lines (fun l hl => pyRstrip_newline l (hall l hl))

theorem c9_witness :
    ((["first\n", "second\n"] : List String).map
        (fun l => pyRstrip l ++ "\n") = ["first\n", "second\n"])
  ∧ (map_lines [] ["first\n", "second\n"]
        (none : Option (String → List String → List String)) [] none [] []
      = Except.ok (["first", "second"], [], [])) := by
  constructor
  · exact (c9_no_rules ["first\n", "second\n"] [] ([] : List String)).2
      (by decide)
  · exact ((c9_no_rules ["first\n", "second\n"] [] ([] : List String)).1).trans
      (by rfl)

/-! ### Claim C10: the defaulted error handler -/

theorem chainInner_handler {η η' : Type} (onE' : String → η' → η')
    (fs : List RuleFn) (x : PyVal) (g : GEnv) (h : η) (h' : η') :
    chainInner (fun _ k => k) fs x g h
      = ((chainInner onE' fs x g h').1, (chainInner onE' fs x g h').2.1, h) := by
  induction fs generalizing x g h' with
  | nil => rfl
  | cons f fs ih =>
    rw [chainInner_cons]
    rw [chainInner_cons]
    rcases hfx : f g x with ⟨r0, g'⟩
    cases r0 with
    | error e => rfl
    | ok r =>
      cases r with
      | vnone => rfl
      | vbool b =>
        cases b with
        | false => rfl
        | true => exact ih x g' h'
      | vstr s => exact ih (PyVal.vstr s) g' h'
      | vother s => exact ih (PyVal.vother s) g' h'

theorem lineLoop_handler {η η' : Type} (onE' : String → η' → η')
    (fs : List RuleFn) (lines : List String) (g : GEnv) (h : η) (h' : η') :
    lineLoop (fun _ k => k) fs lines g h
      = ((lineLoop onE' fs lines g h').1, (lineLoop onE' fs lines g h').2.1, h) := by
  induction lines generalizing g h' with
  | nil => rfl
  | cons l ls ih =>
    have hch := chainInner_handler onE' fs (PyVal.vstr (pyRstrip l)) g h h'
    rcases hc : chainInner onE' fs (PyVal.vstr (pyRstrip l)) g h' with ⟨r, g1, h1⟩
    rw [hc] at hch
    cases r with
    | none =>
      simp only [lineLoop, hch, hc]
      exact ih g1 h1
    | some v =>
      simp only [lineLoop, hch, hc]
      have hih := ih g1 h1
      rcases hll : lineLoop onE' fs ls g1 h1 with ⟨o2, g2, h2⟩
      rw [hll] at hih
      simp [hih, hll]

theorem lastBlock_handler {η η' : Type} (onE' : String → η' → η') (lm : LastFn)
    (g : GEnv) (h : η) (h' : η') :
    lastBlock (fun _ k => k) lm g h
      = ((lastBlock onE' lm g h').1, (lastBlock onE' lm g h').2.1, h) := by
  rcases hf : funcsLast lm g with ⟨r, g1⟩
  cases r with
  | error e => simp [lastBlock, hf]
  | ok o => cases o <;> simp [lastBlock, hf]

theorem mapLinesBody_handler {η η' : Type} (onE' : String → η' → η')
    (fs : List RuleFn) (lm : LastFn) (lines : List String) (g : GEnv)
    (h : η) (h' : η') :
    mapLinesBody (fun _ k => k) fs lm lines g h
      = ((mapLinesBody onE' fs lm lines g h').1,
          (mapLinesBody onE' fs lm lines g h').2.1, h) := by
  have hll := lineLoop_handler onE' fs lines g h h'
  rcases h1 : lineLoop onE' fs lines g h' with ⟨o1, g1, h1'⟩
  rw [h1] at hll
  have hlb := lastBlock_handler onE' lm g1 h h1'
  rcases h2 : lastBlock onE' lm g1 h1' with ⟨o2, g2, h2'⟩
  rw [h2] at hlb
  simp only [mapLinesBody, hll, hlb, h1, h2]

theorem mapLinesRun_handler {η η' : Type} (onE' : String → η' → η')
    (sym : GEnv) (fs : List RuleFn) (lm : LastFn) (lines : List String)
    (g : GEnv) (h : η) (h' : η') :
    mapLinesRun (fun _ k => k) sym fs lm lines g h
      = Except.map (fun p => (p.1, p.2.1, h))
          (mapLinesRun onE' sym fs lm lines g h') := by
  by_cases hc : collides sym g = true
  · simp [mapLinesRun, hc, Except.map]
  · have hb := mapLinesBody_handler onE' fs lm lines (installSym g sym) h h'
    rcases h1 : mapLinesBody onE' fs lm lines (installSym g sym) h' with ⟨o, g2, h2⟩
    rw [h1] at hb
    simp [mapLinesRun, hc, hb, h1, Except.map]

/-- Claim C10: omitting `on_exception` substitutes a no-op handler: the
run produces exactly the outputs and final namespace of a run with any
other handler, while the handler state is left untouched (exceptions are
silently discarded), and the run returns normally in the same cases. -/
theorem c10_default_handler {η : Type} (fs : List RuleFn) (lines : List String)
    (sym : GEnv) (lm : Option LastFn) (g : GEnv) (h : η)
    (f : String → η → η) :
    (map_lines fs lines (none : Option (String → η → η)) sym lm g h
      = Except.map (fun p => (p.1, p.2.1, h))
          (map_lines fs lines (some f) sym lm g h))
  ∧ (∀ e k, pyOptionalHandler (none : Option (String → η → η)) e k = k) := by
  refine ⟨?_, fun e k => rfl⟩
  exact mapLinesRun_handler f sym (newMapperChainFns fs)
    (pyOptionalLast (lm.map watchLast)) lines g h h

/-! ### Claim C4: symbol-table discipline -/

theorem envGet_envSet_self (l : GEnv) (k : String) (v : PyVal) :
    envGet (envSet l k v) k = some v := by
  induction l with
  | nil => simp [envSet, envGet]
  | cons p ps ih =>
    by_cases hp : p.1 = k
    · simp [envSet, hp, envGet]
    · simp [envSet, hp, envGet, ih]

theorem envGet_envSet_ne (l : GEnv) (k k' : String) (v : PyVal)
    (hk : k' ≠ k) : envGet (envSet l k v) k' = envGet l k' := by
  have hkk : ¬ k = k' := fun h => hk h.symm
  induction l with
  | nil => simp [envSet, envGet, hkk]
  | cons p ps ih =>
    by_cases hp : p.1 = k
    · have hpk : ¬ p.1 = k' := by rw [hp]; exact hkk
      simp [envSet, envGet, hp, hpk, hkk]
    · simp [envSet, envGet, hp, ih]

theorem envGet_envDel_self (l : GEnv) (k : String) :
    envGet (envDel l k) k = none := by
  induction l with
  | nil => rfl
  | cons p ps ih =>
    by_cases hp : p.1 = k
    · simpa [envDel, hp] using ih
    · simp [envDel, envGet, hp, ih]

theorem envGet_envDel_ne (l : GEnv) (k k' : String) (hk : k' ≠ k) :
    envGet (envDel l k) k' = envGet l k' := by
  have hkk : ¬ k = k' := fun h => hk h.symm
  induction l with
  | nil => rfl
  | cons p ps ih =>
    by_cases hp : p.1 = k
    · have hpk : ¬ p.1 = k' := by rw [hp]; exact hkk
      simp [envDel, envGet, hp, hpk, hkk, ih]
    · simp [envDel, envGet, hp, ih]

theorem envGet_mapKeys (ks : List String) (f : String → PyVal) (k : String) :
    envGet (ks.map (fun a => (a, f a))) k
      = if k ∈ ks then some (f k) else none := by
  induction ks with
  | nil => simp [envGet]
  | cons a as ih =>
    by_cases ha : a = k
    · subst ha
      simp [envGet]
    · have hka : ¬ k = a := fun hh => ha hh.symm
      simp [envGet, ha, hka, ih]

theorem envKeys_cons (p : String × PyVal) (ps : GEnv) :
    envKeys (p :: ps) = p.1 :: envKeys ps := rfl

theorem mem_envKeys_iff (l : GEnv) (k : String) :
    k ∈ envKeys l ↔ (envGet l k).isSome := by
  induction l with
  | nil => simp [envKeys, envGet]
  | cons p ps ih =>
    by_cases hp : p.1 = k
    · simp [envKeys_cons, envGet, hp]
    · have hkp : ¬ k = p.1 := fun hh => hp hh.symm
      simp [envKeys_cons, envGet, hp, hkp, ih]

theorem envGet_eq_none_of_not_mem (l : GEnv) (k : String)
    (hk : k ∉ envKeys l) : envGet l k = none := by
  cases hopt : envGet l k with
  | none => rfl
  | some v => exact absurd ((mem_envKeys_iff l k).mpr (by simp [hopt])) hk

theorem envGet_canonKwargs (kw : List (String × PyVal)) (k : String) :
    envGet (canonKwargs kw) k = envGet kw k := by
  rw [canonKwargs, envGet_mapKeys]
  have hmem : k ∈ List.insertionSort (fun a b : String => a ≤ b) (envKeys kw)
      ↔ k ∈ envKeys kw :=
    (List.perm_insertionSort _ _).mem_iff
  cases hopt : envGet kw k with
  | none =>
    rw [if_neg]
    intro hmem2
    have hs := (mem_envKeys_iff kw k).mp (hmem.mp hmem2)
    simp [hopt] at hs
  | some v =>
    rw [if_pos (hmem.mpr ((mem_envKeys_iff kw k).mpr (by simp [hopt])))]
    simp [hopt]

theorem mem_envKeys_envSet (l : GEnv) (k a : String) (v : PyVal) :
    a ∈ envKeys (envSet l k v) ↔ a ∈ envKeys l ∨ a = k := by
  by_cases ha : a = k
  · subst ha
    rw [mem_envKeys_iff, envGet_envSet_self]
    simp
  · rw [mem_envKeys_iff, envGet_envSet_ne l k a v ha, ← mem_envKeys_iff]
    simp [ha]

theorem nodup_envSet (l : GEnv) (k : String) (v : PyVal)
    (hl : (envKeys l).Nodup) : (envKeys (envSet l k v)).Nodup := by
  induction l with
  | nil => simp [envSet, envKeys]
  | cons p ps ih =>
    rw [envKeys_cons, List.nodup_cons] at hl
    by_cases hp : p.1 = k
    · rw [envSet, if_pos hp, envKeys_cons]
      exact List.nodup_cons.mpr ⟨hp ▸ hl.1, hl.2⟩
    · rw [envSet, if_neg hp, envKeys_cons]
      refine List.nodup_cons.mpr ⟨?_, ih hl.2⟩
      intro hmem
      rcases (mem_envKeys_envSet ps k p.1 v).mp hmem with h1 | h1
      · exact hl.1 h1
      · exact hp h1

theorem mem_envKeys_envDel (l : GEnv) (k a : String) :
    a ∈ envKeys (envDel l k) → a ∈ envKeys l := by
  by_cases ha : a = k
  · subst ha
    intro hm
    rw [mem_envKeys_iff, envGet_envDel_self] at hm
    simp at hm
  · intro hm
    rw [mem_envKeys_iff, envGet_envDel_ne l k a ha] at hm
    exact (mem_envKeys_iff l a).mpr hm

theorem nodup_envDel (l : GEnv) (k : String) (hl : (envKeys l).Nodup) :
    (envKeys (envDel l k)).Nodup := by
  induction l with
  | nil => simp [envDel, envKeys]
  | cons p ps ih =>
    rw [envKeys_cons, List.nodup_cons] at hl
    by_cases hp : p.1 = k
    · rw [envDel, if_pos hp]
      exact ih hl.2
    · rw [envDel, if_neg hp, envKeys_cons]
      exact List.nodup_cons.mpr
        ⟨fun hm => hl.1 (mem_envKeys_envDel ps k p.1 hm), ih hl.2⟩

theorem nodup_dictUnion (a b : List (String × PyVal))
    (ha : (envKeys a).Nodup) : (envKeys (dictUnion a b)).Nodup := by
  induction b generalizing a with
  | nil => exact ha
  | cons p bs ih =>
    show (envKeys (dictUnion (envSet a p.1 p.2) bs)).Nodup
    exact ih (envSet a p.1 p.2) (nodup_envSet a p.1 p.2 ha)

/-- `o1 or o2` on optionals: the first value if present, else the second. -/
def dictFirst (o1 o2 : Option PyVal) : Option PyVal :=
  match o1 with
  | some v => some v
  | none => o2

theorem envGet_dictUnion (a b : List (String × PyVal))
    (hb : (envKeys b).Nodup) (k : String) :
    envGet (dictUnion a b) k = dictFirst (envGet b k) (envGet a k) := by
  induction b generalizing a with
  | nil => simp [dictUnion, envGet, dictFirst]
  | cons p bs ih =>
    rw [envKeys, List.map_cons] at hb
    have hbs := (List.nodup_cons.mp hb).2
    have hpm := (List.nodup_cons.mp hb).1
    show envGet (dictUnion (envSet a p.1 p.2) bs) k = _
    rw [ih (envSet a p.1 p.2) hbs]
    by_cases hp : p.1 = k
    · subst hp
      rw [envGet_eq_none_of_not_mem bs p.1 hpm]
      rw [envGet_envSet_self]
      simp [envGet, dictFirst]
    · have hkp : ¬ k = p.1 := fun hh => hp hh.symm
      rw [envGet_envSet_ne a p.1 k p.2 hkp]
      simp [envGet, hp, dictFirst]

theorem envGet_eq_some_of_mem (l : GEnv) (k : String) (v : PyVal)
    (hnd : (envKeys l).Nodup) (hm : (k, v) ∈ l) : envGet l k = some v := by
  induction l with
  | nil => simp at hm
  | cons p ps ih =>
    rw [envKeys_cons, List.nodup_cons] at hnd
    rcases List.mem_cons.mp hm with heq | hmem
    · subst heq
      simp [envGet]
    · by_cases hp : p.1 = k
      · have hmk : k ∈ envKeys ps := List.mem_map_of_mem Prod.fst hmem
        exact absurd hmk (hp ▸ hnd.1)
      · simp [envGet, hp, ih hnd.2 hmem]

theorem mem_of_envGet_eq_some (l : GEnv) (k : String) (v : PyVal)
    (h : envGet l k = some v) : (k, v) ∈ l := by
  induction l with
  | nil => simp [envGet] at h
  | cons p ps ih =>
    by_cases hp : p.1 = k
    · simp only [envGet, if_pos hp] at h
      have hv : p.2 = v := by simpa using h
      subst hv
      rw [← hp]
      exact List.mem_cons_self p ps
    · simp only [envGet, if_neg hp] at h
      exact List.mem_cons_of_mem p (ih h)

theorem perm_envGet (l1 l2 : List (String × PyVal)) (hp : l1.Perm l2)
    (hnd : (envKeys l1).Nodup) (k : String) : envGet l1 k = envGet l2 k := by
  have hpk : (envKeys l1).Perm (envKeys l2) := hp.map Prod.fst
  have hnd2 : (envKeys l2).Nodup := hpk.nodup_iff.mp hnd
  cases hopt : envGet l1 k with
  | none =>
    have hk1 : k ∉ envKeys l1 := fun hm => by
      have hs := (mem_envKeys_iff l1 k).mp hm
      simp [hopt] at hs
    have hk2 : k ∉ envKeys l2 := fun hm => hk1 (hpk.mem_iff.mpr hm)
    rw [envGet_eq_none_of_not_mem l2 k hk2]
  | some v =>
    have hm1 : (k, v) ∈ l1 := mem_of_envGet_eq_some l1 k v hopt
    exact (envGet_eq_some_of_mem l2 k v hnd2 (hp.mem_iff.mp hm1)).symm

instance : IsTotal String (fun a b : String => a ≤ b) :=
  ⟨fun a b => le_total a b⟩

instance : IsTrans String (fun a b : String => a ≤ b) :=
  ⟨fun _ _ _ hab hbc => le_trans hab hbc⟩

instance : IsAntisymm String (fun a b : String => a ≤ b) :=
  ⟨fun _ _ hab hba => le_antisymm hab hba⟩

theorem envKeys_canonKwargs (kw : List (String × PyVal)) :
    envKeys (canonKwargs kw)
      = List.insertionSort (fun a b : String => a ≤ b) (envKeys kw) := by
  rw [canonKwargs, envKeys, List.map_map]
  rw [show (Prod.fst ∘ fun a : String => (a, (envGet kw a).getD PyVal.vnone))
      = id from rfl, List.map_id]

theorem canonKwargs_perm_eq (kw1 kw2 : List (String × PyVal))
    (hp : kw1.Perm kw2) (hnd : (envKeys kw1).Nodup) :
    canonKwargs kw1 = canonKwargs kw2 := by
  have hpk : (envKeys kw1).Perm (envKeys kw2) := hp.map Prod.fst
  have hsorteq : List.insertionSort (fun a b : String => a ≤ b) (envKeys kw1)
      = List.insertionSort (fun a b : String => a ≤ b) (envKeys kw2) := by
    have hs1 := List.sorted_insertionSort (fun a b : String => a ≤ b) (envKeys kw1)
    have hs2 := List.sorted_insertionSort (fun a b : String => a ≤ b) (envKeys kw2)
    have hpp : (List.insertionSort (fun a b : String => a ≤ b) (envKeys kw1)).Perm
        (List.insertionSort (fun a b : String => a ≤ b) (envKeys kw2)) :=
      (List.perm_insertionSort _ _).trans
        (hpk.trans (List.perm_insertionSort _ _).symm)
    exact List.eq_of_perm_of_sorted hpp hs1 hs2
  have hfun : (fun a : String => (a, (envGet kw1 a).getD PyVal.vnone))
      = (fun a : String => (a, (envGet kw2 a).getD PyVal.vnone)) :=
    funext (fun a => by rw [perm_envGet kw1 kw2 hp hnd a])
  rw [canonKwargs, canonKwargs, hsorteq, hfun]

/-- The keyword lookup contract of `Event.update`: outside the special
names `level` and `fmt`, a key maps to the new value when supplied, and
to the old value otherwise. -/
def MergedLookups (ekw kw ukw : List (String × PyVal)) : Prop :=
  ∀ k, k ≠ "level" → k ≠ "fmt" →
    envGet ukw k = dictFirst (envGet kw k) (envGet ekw k)

/-- Canonical keyword form: keys sorted and unique. -/
def CanonicalKw (l : List (String × PyVal)) : Prop :=
  List.Sorted (fun a b : String => a ≤ b) (envKeys l) ∧ (envKeys l).Nodup

/-- Claim C6: `Event.update` returns a new event whose args are the
concatenation of old and new, whose keyword mapping merges old and new
with new values overriding, whose `level`/`fmt` are replaced when
supplied in the new keywords and retained otherwise, and whose keyword
pairs are canonicalized in sorted unique key order, so that two events
built from permuted keyword lists are equal.  (The original event is
untouched: the operation is pure.) -/
theorem c6_event_update (e : Event) (args : List PyVal)
    (kw : List (String × PyVal))
    (hek : (envKeys e.kwargs).Nodup) (hkk : (envKeys kw).Nodup) :
    ((e.update args kw).args = e.args ++ args)
  ∧ ((e.update args kw).level = (envGet kw "level").getD e.level)
  ∧ ((e.update args kw).fmt = (envGet kw "fmt").getD e.fmt)
  ∧ MergedLookups e.kwargs kw (e.update args kw).kwargs
  ∧ CanonicalKw (e.update args kw).kwargs
  ∧ (∀ lv fm ags kw2, kw.Perm kw2 →
      Event.new lv fm ags kw = Event.new lv fm ags kw2) := by
  rcases hp1 : dictPop kw "level" e.level with ⟨lv, kw1⟩
  rcases hp2 : dictPop kw1 "fmt" e.fmt with ⟨fm, kw2⟩
  have hupd : e.update args kw
      = Event.new lv fm (e.args ++ args) (dictUnion e.kwargs kw2) := by
    simp only [Event.update, hp1, hp2]
  have hlv : lv = (envGet kw "level").getD e.level := by
    cases hop : envGet kw "level" with
    | none => simp only [dictPop, hop] at hp1; cases hp1; rfl
    | some v => simp only [dictPop, hop] at hp1; cases hp1; rfl
  have hkw1 : ∀ k, k ≠ "level" → envGet kw1 k = envGet kw k := by
    intro k hk
    cases hop : envGet kw "level" with
    | none => simp only [dictPop, hop] at hp1; cases hp1; rfl
    | some v =>
      simp only [dictPop, hop] at hp1
      cases hp1
      exact envGet_envDel_ne kw "level" k hk
  have hkw1nd : (envKeys kw1).Nodup := by
    cases hop : envGet kw "level" with
    | none => simp only [dictPop, hop] at hp1; cases hp1; exact hkk
    | some v =>
      simp only [dictPop, hop] at hp1
      cases hp1
      exact nodup_envDel kw "level" hkk
  have hfm : fm = (envGet kw1 "fmt").getD e.fmt := by
    cases hop : envGet kw1 "fmt" with
    | none => simp only [dictPop, hop] at hp2; cases hp2; rfl
    | some v => simp only [dictPop, hop] at hp2; cases hp2; rfl
  have hkw2 : ∀ k, k ≠ "fmt" → envGet kw2 k = envGet kw1 k := by
    intro k hk
    cases hop : envGet kw1 "fmt" with
    | none => simp only [dictPop, hop] at hp2; cases hp2; rfl
    | some v =>
      simp only [dictPop, hop] at hp2
      cases hp2
      exact envGet_envDel_ne kw1 "fmt" k hk
  have hkw2nd : (envKeys kw2).Nodup := by
    cases hop : envGet kw1 "fmt" with
    | none => simp only [dictPop, hop] at hp2; cases hp2; exact hkw1nd
    | some v =>
      simp only [dictPop, hop] at hp2
      cases hp2
      exact nodup_envDel kw1 "fmt" hkw1nd
  refine ⟨?_, ?_, ?_, ?_, ?_, ?_⟩
  · rw [hupd]; rfl
  · rw [hupd]; exact hlv
  · rw [hupd]
    show fm = (envGet kw "fmt").getD e.fmt
    rw [hfm, hkw1 "fmt" (by decide)]
  · intro k hk1 hk2
    rw [hupd]
    show envGet (canonKwargs (dictUnion e.kwargs kw2)) k
        = dictFirst (envGet kw k) (envGet e.kwargs k)
    rw [envGet_canonKwargs, envGet_dictUnion e.kwargs kw2 hkw2nd k,
      hkw2 k hk2, hkw1 k hk1]
  · rw [hupd]
    constructor
    · show List.Sorted (fun a b : String => a ≤ b)
        (envKeys (canonKwargs (dictUnion e.kwargs kw2)))
      rw [envKeys_canonKwargs]
      exact List.sorted_insertionSort _ _
    · show (envKeys (canonKwargs (dictUnion e.kwargs kw2))).Nodup
      rw [envKeys_canonKwargs]
      exact (List.perm_insertionSort _ _).nodup_iff.mpr
        (nodup_dictUnion e.kwargs kw2 hek)
  · intro lv' fm' ags kw2' hperm
    show Event.mk lv' fm' ags (canonKwargs kw)
        = Event.mk lv' fm' ags (canonKwargs kw2')
    rw [canonKwargs_perm_eq kw kw2' hperm hkk]

/-- Concrete event for the C6 witness. -/
def c6e : Event :=
  Event.new (PyVal.vother "10") (PyVal.vstr "msg") [] [("key", PyVal.vother "42")]

/-- Concrete update keywords for the C6 witness. -/
def c6kw : List (String × PyVal) :=
  [("fmt", PyVal.vstr "changed"), ("b", PyVal.vstr "z"), ("key", PyVal.vother "43")]

theorem c6_witness :
    ((envKeys c6e.kwargs).Nodup)
  ∧ ((envKeys c6kw).Nodup)
  ∧ ((c6e.update [PyVal.vstr "first"] c6kw).args = c6e.args ++ [PyVal.vstr "first"])
  ∧ ((c6e.update [PyVal.vstr "first"] c6kw).fmt = (envGet c6kw "fmt").getD c6e.fmt)
  ∧ MergedLookups c6e.kwargs c6kw (c6e.update [PyVal.vstr "first"] c6kw).kwargs
  ∧ CanonicalKw (c6e.update [PyVal.vstr "first"] c6kw).kwargs
  ∧ Event.new (PyVal.vother "10") (PyVal.vstr "m") [] c6kw
      = Event.new (PyVal.vother "10") (PyVal.vstr "m") []
          [("key", PyVal.vother "43"), ("fmt", PyVal.vstr "changed"), ("b", PyVal.vstr "z")] := by
  have h1 : (envKeys c6e.kwargs).Nodup := by decide
  have h2 : (envKeys c6kw).Nodup := by decide
  have hc := c6_event_update c6e [PyVal.vstr "first"] c6kw h1 h2
  exact ⟨h1, h2, hc.1, hc.2.2.1, hc.2.2.2.1, hc.2.2.2.2.1,
    hc.2.2.2.2.2 (PyVal.vother "10") (PyVal.vstr "m") []
      [("key", PyVal.vother "43"), ("fmt", PyVal.vstr "changed"), ("b", PyVal.vstr "z")]
      (by decide)⟩
